import Mathlib

/-!
Bad domains: a block-list index over reversed domain names.

A shallow embedding of `src/main.cpp`.

* A `std::string` is a `List Char`; one `Char` stands for one `char` of the
  string, and characters are ordered by their numeric value, as
  `std::char_traits<char>::lt` orders them.
* `Domain` and `DomainChecker` are the two classes of the program; their
  member functions keep their names.
* `std::sort`, `std::unique`, `std::upper_bound` and `std::equal` are embedded
  as list functions (`sort`, `unique`, `upper_bound`, `equal`).
* `std::vector::at` fails on an index out of range, so `IsForbidden` returns
  an `Option Bool`: `none` stands for `std::out_of_range`.
-/

namespace BadDomains

/-! ## Strings -/

/-- The `operator<` of `std::string`: lexicographic comparison, character by
character, a proper beginning of a string being smaller than the string. -/
def strLess : List Char → List Char → Bool
  | [], [] => false
  | [], _ :: _ => true
  | _ :: _, [] => false
  | a :: as, b :: bs =>
    if a.toNat < b.toNat then true
    else if b.toNat < a.toNat then false
    else strLess as bs

/-- The three-iterator `std::equal(first1, last1, first2)`: every element of
the first range is compared with the element at the same offset of the second
one. The caller guarantees the second range is long enough; where it is not,
the embedding answers `false`. -/
def equal : List Char → List Char → Bool
  | [], _ => true
  | _ :: _, [] => false
  | a :: as, b :: bs => if a = b then equal as bs else false

/-! ## Domain -/

/-- The class `Domain`: it only stores the string it was constructed from. -/
structure Domain where
  domain_ : List Char
deriving DecidableEq, Repr

namespace Domain

/-- The member `Domain::operator==`: the two strings are equal. -/
def operatorEq (self domain : Domain) : Bool :=
  decide (self.domain_ = domain.domain_)

/-- The member `Domain::GetDomain`. -/
def GetDomain (self : Domain) : List Char := self.domain_

/-- The member `Domain::IsSubdomain`: `domain` is no longer than `self`, and the
characters of `domain` are the first characters of `self`. -/
def IsSubdomain (self domain : Domain) : Bool :=
  if domain.domain_.length ≤ self.domain_.length then
    equal domain.domain_ self.domain_
  else
    false

end Domain

/-! ## Standard algorithms -/

/-- One insertion step of the sort: `x` goes before the first element that
`comp` puts after it. -/
def sortInsert (comp : Domain → Domain → Bool) (x : Domain) : List Domain → List Domain
  | [] => [x]
  | y :: ys => if comp x y then x :: y :: ys else y :: sortInsert comp x ys

/-- The algorithm `std::sort` with a comparator, as an insertion sort. The
standard fixes the result up to the order of equivalent elements; for the
comparator of `SortAndClean` equivalent elements are equal, so every sorting
algorithm returns this list (`sort_unique` below). -/
def sort (comp : Domain → Domain → Bool) : List Domain → List Domain
  | [] => []
  | x :: xs => sortInsert comp x (sort comp xs)

/-- The loop of `std::unique`: `dest` is the last element kept so far; the
next element is dropped when `pred dest x` holds and kept (becoming the new
`dest`) otherwise. -/
def uniqueLoop (pred : Domain → Domain → Bool) (dest : Domain) : List Domain → List Domain
  | [] => []
  | x :: xs => if pred dest x then uniqueLoop pred dest xs else x :: uniqueLoop pred x xs

/-- The algorithm `std::unique` followed by the `erase` of the tail: the first
element is kept, then `uniqueLoop` runs over the rest. -/
def unique (pred : Domain → Domain → Bool) : List Domain → List Domain
  | [] => []
  | x :: xs => x :: uniqueLoop pred x xs

/-- The binary search of `std::upper_bound` over the index range
`[first, first + len)`. The first argument bounds the number of iterations;
`none` is a read outside the vector or an exhausted bound. -/
def upperBoundLoop (v : List Domain) (value : Domain) (comp : Domain → Domain → Bool) :
    Nat → Nat → Nat → Option Nat
  | 0, first, len => if 0 < len then none else some first
  | fuel + 1, first, len =>
    if 0 < len then
      let half := len / 2
      let middle := first + half
      match v[middle]? with
      | none => none
      | some m =>
        if comp value m then upperBoundLoop v value comp fuel first half
        else upperBoundLoop v value comp fuel (middle + 1) (len - half - 1)
    else some first

/-- The algorithm `std::upper_bound(begin, end, value, comp)`, as the index of
the iterator it returns. The length halves in every iteration, so `v.length`
iterations are enough. -/
def upper_bound (v : List Domain) (value : Domain) (comp : Domain → Domain → Bool) :
    Option Nat :=
  upperBoundLoop v value comp v.length 0 v.length

/-! ## DomainChecker -/

/-- The class `DomainChecker`: the vector `banned_`. -/
structure DomainChecker where
  banned_ : List Domain
deriving DecidableEq, Repr

namespace DomainChecker

/-- The comparator of the sort in `SortAndClean` and of the search in
`IsForbidden`: `lhs.GetDomain() < rhs.GetDomain()`. -/
def less (lhs rhs : Domain) : Bool := strLess lhs.GetDomain rhs.GetDomain

/-- The predicate given to `std::unique` in `SortAndClean`:
`rhs.IsSubdomain(lhs)`. -/
def covered (lhs rhs : Domain) : Bool := rhs.IsSubdomain lhs

/-- The member `DomainChecker::SortAndClean`. -/
def SortAndClean (self : DomainChecker) : DomainChecker :=
  { banned_ := unique covered (sort less self.banned_) }

/-- The constructor `DomainChecker(begin, end)`: copy the range, then
`SortAndClean`. -/
def new (range : List Domain) : DomainChecker :=
  SortAndClean { banned_ := range }

/-- The member `DomainChecker::GetBanned`. -/
def GetBanned (self : DomainChecker) : List Domain := self.banned_

/-- The member `DomainChecker::IsForbidden`; `none` is the exception of
`std::vector::at`. -/
def IsForbidden (self : DomainChecker) (domain : Domain) : Option Bool :=
  if self.banned_.isEmpty then
    some false
  else
    match upper_bound self.banned_ domain less with
    | none => none
    | some diff_mark =>
      if diff_mark ≠ 0 then
        (self.banned_[diff_mark - 1]?).map (fun b => domain.IsSubdomain b)
      else
        (self.banned_[diff_mark]?).map (fun b => domain.IsSubdomain b)

/-- The guarded variant of `IsForbidden` that the design notes of the
specification describe: the same search, but when it returns the first position
there is no predecessor, nothing is checked and the answer is false. -/
def IsForbiddenGuarded (self : DomainChecker) (domain : Domain) : Option Bool :=
  if self.banned_.isEmpty then
    some false
  else
    match upper_bound self.banned_ domain less with
    | none => none
    | some diff_mark =>
      if diff_mark ≠ 0 then
        (self.banned_[diff_mark - 1]?).map (fun b => domain.IsSubdomain b)
      else
        some false

end DomainChecker

/-- A list in non-decreasing order of the comparator `less`: the order
`std::sort` leaves the vector in. -/
def Ascending (l : List Domain) : Prop :=
  l.Pairwise (fun a b => DomainChecker.less b a = false)

/-! ## Reading domains -/

/-- The body of the loop of `ReadDomains` after `getline`: reverse the line and
push a `'.'` at its end. -/
def normalize (domain_string : List Char) : List Char :=
  domain_string.reverse ++ ['.']

/-- The function `ReadDomains`: `count` times, take the next line of the input
(an empty string once the input is exhausted, as `std::getline` leaves it),
normalize it and append the `Domain` made from it. The lines left over are
returned with the domains. -/
def ReadDomains (input : List (List Char)) (count : Nat) : List Domain × List (List Char) :=
  match count, input with
  | 0, input => ([], input)
  | count + 1, [] =>
    let rest := ReadDomains [] count
    (Domain.mk (normalize []) :: rest.1, rest.2)
  | count + 1, line :: input =>
    let rest := ReadDomains input count
    (Domain.mk (normalize line) :: rest.1, rest.2)
termination_by structural count

/-- The function `ReadNumberOnLine`: take the next line of the input (an empty
string once the input is exhausted) and extract a number from it. The
extraction `std::istringstream(line) >> num` of the standard library is the
parameter `extract`. -/
def ReadNumberOnLine (extract : List Char → Nat) (input : List (List Char)) :
    Nat × List (List Char) :=
  match input with
  | [] => (extract [], [])
  | line :: rest => (extract line, rest)

/-- The function `main`, from the lines of the standard input to the lines it
writes: read the block-list, build the checker, read the test domains, and
write `Bad` or `Good` for each of them in their order. `none` is the program
ended by the exception of `std::vector::at`. -/
def main (extract : List Char → Nat) (input : List (List Char)) : Option (List String) :=
  let forbidden_count := ReadNumberOnLine extract input
  let forbidden_domains := ReadDomains forbidden_count.2 forbidden_count.1
  let checker := DomainChecker.new forbidden_domains.1
  let test_count := ReadNumberOnLine extract forbidden_domains.2
  let test_domains := ReadDomains test_count.2 test_count.1
  test_domains.1.mapM
    (fun domain => (checker.IsForbidden domain).map (fun bad => if bad then "Bad" else "Good"))

/-! ## Facts about strings -/

theorem char_eq_of_toNat_eq {a b : Char} (h : a.toNat = b.toNat) : a = b := by
  rw [← Char.ofNat_toNat a, ← Char.ofNat_toNat b, h]

theorem equal_iff (e q : List Char) : equal e q = true ↔ e <+: q := by
  induction e generalizing q with
  | nil => simp [equal]
  | cons a e ih =>
    cases q with
    | nil => simp [equal]
    | cons b q =>
      by_cases hab : a = b
      · subst hab
        simp [equal, ih, List.cons_prefix_cons]
      · simp [equal, hab, List.cons_prefix_cons]

theorem strLess_irrefl (a : List Char) : strLess a a = false := by
  induction a with
  | nil => rfl
  | cons x a ih => simp [strLess, ih]

theorem strLess_asymm {a b : List Char} (h : strLess a b = true) : strLess b a = false := by
  induction a generalizing b with
  | nil => cases b <;> simp_all [strLess]
  | cons x a ih =>
    cases b with
    | nil => simp [strLess] at h
    | cons y b =>
      simp only [strLess] at h ⊢
      by_cases h1 : x.toNat < y.toNat
      · have h2 : ¬ y.toNat < x.toNat := by omega
        simp [h1, h2]
      · by_cases h2 : y.toNat < x.toNat
        · simp [h1, h2] at h
        · simp only [h1, h2, if_false] at h ⊢
          exact ih h

theorem strLess_trans {a b c : List Char} (hab : strLess a b = true)
    (hbc : strLess b c = true) : strLess a c = true := by
  induction a generalizing b c with
  | nil =>
    cases c with
    | nil => cases b <;> simp [strLess] at hab hbc
    | cons z c => rfl
  | cons x a ih =>
    cases b with
    | nil => simp [strLess] at hab
    | cons y b =>
      cases c with
      | nil => simp [strLess] at hbc
      | cons z c =>
        simp only [strLess] at hab hbc ⊢
        by_cases h1 : x.toNat < y.toNat
        · by_cases h3 : y.toNat < z.toNat
          · have : x.toNat < z.toNat := by omega
            simp [this]
          · by_cases h4 : z.toNat < y.toNat
            · simp [h3, h4] at hbc
            · have : x.toNat < z.toNat := by omega
              simp [this]
        · by_cases h2 : y.toNat < x.toNat
          · simp [h1, h2] at hab
          · simp only [h1, h2, if_false] at hab
            by_cases h3 : y.toNat < z.toNat
            · have : x.toNat < z.toNat := by omega
              simp [this]
            · by_cases h4 : z.toNat < y.toNat
              · simp [h3, h4] at hbc
              · simp only [h3, h4, if_false] at hbc
                have h5 : ¬ x.toNat < z.toNat := by omega
                have h6 : ¬ z.toNat < x.toNat := by omega
                simp only [h5, h6, if_false]
                exact ih hab hbc

theorem strLess_total {a b : List Char} (hab : strLess a b = false)
    (hba : strLess b a = false) : a = b := by
  induction a generalizing b with
  | nil => cases b <;> simp_all [strLess]
  | cons x a ih =>
    cases b with
    | nil => simp [strLess] at hba
    | cons y b =>
      simp only [strLess] at hab hba
      by_cases h1 : x.toNat < y.toNat
      · simp [h1] at hab
      · by_cases h2 : y.toNat < x.toNat
        · simp [h2] at hba
        · simp only [h1, h2, if_false] at hab hba
          have hxy : x = y := char_eq_of_toNat_eq (by omega)
          rw [hxy, ih hab hba]

/-- A string is never smaller than one of its beginnings. -/
theorem not_strLess_of_isPrefix {e q : List Char} (h : e <+: q) : strLess q e = false := by
  induction e generalizing q with
  | nil => cases q <;> rfl
  | cons a e ih =>
    cases q with
    | nil => simp at h
    | cons b q =>
      rw [List.cons_prefix_cons] at h
      obtain ⟨hab, h⟩ := h
      subst hab
      simp [strLess, ih h]

/-- The strings beginning with `e` are an interval of the order: a string
between `e` and a string that begins with `e` begins with `e` too. -/
theorem isPrefix_of_between {e p q : List Char} (heq : e <+: q)
    (hep : strLess p e = false) (hpq : strLess q p = false) : e <+: p := by
  induction e generalizing p q with
  | nil => exact List.nil_prefix
  | cons a e ih =>
    cases q with
    | nil => simp at heq
    | cons b q =>
      rw [List.cons_prefix_cons] at heq
      obtain ⟨hab, heq⟩ := heq
      subst hab
      cases p with
      | nil => simp [strLess] at hep
      | cons c p =>
        simp only [strLess] at hep hpq
        by_cases h1 : c.toNat < a.toNat
        · simp [h1] at hep
        · by_cases h2 : a.toNat < c.toNat
          · simp [h2] at hpq
          · simp only [h1, h2, if_false] at hep hpq
            have hac : a = c := char_eq_of_toNat_eq (by omega)
            subst hac
            rw [List.cons_prefix_cons]
            exact ⟨rfl, ih heq hep hpq⟩

/-! ## Facts about `Domain` and the comparator -/

namespace Domain

theorem IsSubdomain_iff (self domain : Domain) :
    self.IsSubdomain domain = true ↔ domain.domain_ <+: self.domain_ := by
  unfold IsSubdomain
  constructor
  · intro h
    by_cases hl : domain.domain_.length ≤ self.domain_.length
    · rw [if_pos hl] at h
      exact (equal_iff _ _).1 h
    · rw [if_neg hl] at h
      cases h
  · intro h
    rw [if_pos h.length_le]
    exact (equal_iff _ _).2 h

theorem IsSubdomain_refl (a : Domain) : a.IsSubdomain a = true :=
  (IsSubdomain_iff a a).2 (List.prefix_refl _)

theorem IsSubdomain_trans {a b c : Domain} (hab : a.IsSubdomain b = true)
    (hbc : b.IsSubdomain c = true) : a.IsSubdomain c = true :=
  (IsSubdomain_iff a c).2
    (List.IsPrefix.trans ((IsSubdomain_iff b c).1 hbc) ((IsSubdomain_iff a b).1 hab))

theorem IsSubdomain_antisymm {a b : Domain} (hab : a.IsSubdomain b = true)
    (hba : b.IsSubdomain a = true) : a = b := by
  have h1 := (IsSubdomain_iff a b).1 hab
  have h2 := (IsSubdomain_iff b a).1 hba
  have h3 : a.domain_ = b.domain_ :=
    (List.IsPrefix.eq_of_length_le h2 h1.length_le)
  cases a; cases b; simp_all

end Domain

namespace DomainChecker

theorem less_irrefl (a : Domain) : less a a = false := strLess_irrefl _

theorem less_asymm {a b : Domain} (h : less a b = true) : less b a = false :=
  strLess_asymm h

theorem less_trans {a b c : Domain} (hab : less a b = true) (hbc : less b c = true) :
    less a c = true := strLess_trans hab hbc

theorem less_total {a b : Domain} (hab : less a b = false) (hba : less b a = false) :
    a = b := by
  have h : a.domain_ = b.domain_ := strLess_total hab hba
  cases a; cases b; simp_all

/-- Being not greater is transitive. -/
theorem notLess_trans {a b c : Domain} (hba : less b a = false) (hcb : less c b = false) :
    less c a = false := by
  by_contra h
  have hca : less c a = true := by simpa using h
  cases hab : less a b with
  | true =>
    have := less_trans hca hab
    simp [this] at hcb
  | false =>
    have hEq : a = b := less_total hab hba
    subst hEq
    simp [hca] at hcb

theorem less_of_less_of_notLess {a b c : Domain} (hab : less a b = true)
    (hcb : less c b = false) : less a c = true := by
  by_contra h
  have hac : less a c = false := by simpa using h
  cases hca : less c a with
  | true =>
    have := less_trans hca hab
    simp [this] at hcb
  | false =>
    have hEq : a = c := less_total hac hca
    subst hEq
    simp [hab] at hcb

/-- A covered domain is not smaller than the domain that covers it. -/
theorem notLess_of_covered {e q : Domain} (h : q.IsSubdomain e = true) : less q e = false :=
  not_strLess_of_isPrefix ((Domain.IsSubdomain_iff q e).1 h)

/-- A domain between `e` and a domain covered by `e` is covered by `e`. -/
theorem covered_of_between {e p q : Domain} (heq : q.IsSubdomain e = true)
    (hep : less p e = false) (hpq : less q p = false) : p.IsSubdomain e = true :=
  (Domain.IsSubdomain_iff p e).2
    (isPrefix_of_between ((Domain.IsSubdomain_iff q e).1 heq) hep hpq)

end DomainChecker

/-! ## Facts about the sort -/

theorem sortInsert_perm (comp : Domain → Domain → Bool) (x : Domain) (l : List Domain) :
    (sortInsert comp x l).Perm (x :: l) := by
  induction l with
  | nil => exact List.Perm.refl _
  | cons y ys ih =>
    unfold sortInsert
    split
    · exact List.Perm.refl _
    · exact (List.Perm.cons y ih).trans (List.Perm.swap x y ys)

theorem sort_perm (comp : Domain → Domain → Bool) (l : List Domain) :
    (sort comp l).Perm l := by
  induction l with
  | nil => exact List.Perm.refl _
  | cons x xs ih =>
    exact (sortInsert_perm comp x (sort comp xs)).trans (List.Perm.cons x ih)

open DomainChecker in
theorem sortInsert_ascending (x : Domain) (l : List Domain) (h : Ascending l) :
    Ascending (sortInsert less x l) := by
  induction l with
  | nil => simp [sortInsert, Ascending]
  | cons y ys ih =>
    unfold sortInsert
    have hy := List.pairwise_cons.1 h
    cases hxy : less x y with
    | true =>
      simp only [if_true]
      refine List.pairwise_cons.2 ⟨?_, h⟩
      intro z hz
      rcases List.mem_cons.1 hz with rfl | hz
      · exact less_asymm hxy
      · exact notLess_trans (less_asymm hxy) (hy.1 z hz)
    | false =>
      simp only [Bool.false_eq_true, if_false]
      refine List.pairwise_cons.2 ⟨?_, ih hy.2⟩
      intro z hz
      rcases List.mem_cons.1 ((sortInsert_perm less x ys).subset hz) with rfl | hz
      · exact hxy
      · exact hy.1 z hz

open DomainChecker in
theorem sort_ascending (l : List Domain) : Ascending (sort less l) := by
  induction l with
  | nil => exact List.Pairwise.nil
  | cons x xs ih => exact sortInsert_ascending x _ ih

open DomainChecker in
/-- Two ascending lists with the same elements, counted with multiplicity, are
the same list. -/
theorem ascending_perm_eq {l₁ l₂ : List Domain} (hp : l₁.Perm l₂) (h₁ : Ascending l₁)
    (h₂ : Ascending l₂) : l₁ = l₂ := by
  induction l₁ generalizing l₂ with
  | nil => exact (List.Perm.nil_eq hp)
  | cons a t ih =>
    cases l₂ with
    | nil => exact absurd hp.length_eq (by simp)
    | cons b u =>
      have ha := List.pairwise_cons.1 h₁
      have hb := List.pairwise_cons.1 h₂
      have hab : a = b := by
        have h1 : a ∈ b :: u := hp.subset (List.mem_cons_self a t)
        have h2 : b ∈ a :: t := hp.symm.subset (List.mem_cons_self b u)
        rcases List.mem_cons.1 h1 with h | h
        · exact h
        · rcases List.mem_cons.1 h2 with h' | h'
          · exact h'.symm
          · exact less_total (hb.1 a h) (ha.1 b h')
      subst hab
      rw [ih (List.Perm.cons_inv hp) ha.2 hb.2]

open DomainChecker in
/-- Every result `std::sort` may return, a permutation of the input in
non-decreasing order of `less`, is the list `sort less` computes. -/
theorem sort_unique {l s : List Domain} (hp : s.Perm l) (hs : Ascending s) :
    s = sort less l :=
  ascending_perm_eq (hp.trans (sort_perm less l).symm) hs (sort_ascending l)

/-! ## Facts about the pruning -/

theorem uniqueLoop_sublist (pred : Domain → Domain → Bool) (dest : Domain) (l : List Domain) :
    (uniqueLoop pred dest l).Sublist l := by
  induction l generalizing dest with
  | nil => exact List.Sublist.refl _
  | cons x xs ih =>
    unfold uniqueLoop
    split
    · exact List.Sublist.cons x (ih dest)
    · exact List.Sublist.cons₂ x (ih x)

theorem unique_sublist (pred : Domain → Domain → Bool) (l : List Domain) :
    (unique pred l).Sublist l := by
  cases l with
  | nil => exact List.Sublist.refl _
  | cons x xs => exact List.Sublist.cons₂ x (uniqueLoop_sublist pred x xs)

open DomainChecker in
/-- Every element the loop runs over is covered by `dest` or by an element the
loop keeps. -/
theorem uniqueLoop_covers (dest : Domain) (l : List Domain) :
    ∀ x ∈ l, ∃ r ∈ dest :: uniqueLoop covered dest l, x.IsSubdomain r = true := by
  induction l generalizing dest with
  | nil => intro x hx; cases hx
  | cons y ys ih =>
    intro x hx
    unfold uniqueLoop
    cases hc : covered dest y with
    | true =>
      simp only [if_true]
      rcases List.mem_cons.1 hx with rfl | hx
      · exact ⟨dest, List.mem_cons_self _ _, hc⟩
      · exact ih dest x hx
    | false =>
      simp only [Bool.false_eq_true, if_false]
      rcases List.mem_cons.1 hx with rfl | hx
      · exact ⟨x, by simp, Domain.IsSubdomain_refl x⟩
      · obtain ⟨r, hr, hxr⟩ := ih y x hx
        exact ⟨r, List.mem_cons_of_mem _ hr, hxr⟩

open DomainChecker in
theorem unique_covers (l : List Domain) :
    ∀ x ∈ l, ∃ r ∈ unique covered l, x.IsSubdomain r = true := by
  cases l with
  | nil => intro x hx; cases hx
  | cons y ys =>
    intro x hx
    rcases List.mem_cons.1 hx with rfl | hx
    · exact ⟨x, by simp [unique], Domain.IsSubdomain_refl x⟩
    · exact uniqueLoop_covers y ys x hx

open DomainChecker in
/-- Over an ascending list, no element that is kept covers a later one. -/
theorem uniqueLoop_free (dest : Domain) (l : List Domain) (h : Ascending (dest :: l)) :
    (dest :: uniqueLoop covered dest l).Pairwise (fun a b => b.IsSubdomain a = false) := by
  induction l generalizing dest with
  | nil => simp [uniqueLoop]
  | cons y ys ih =>
    have hd := List.pairwise_cons.1 h
    have hy := List.pairwise_cons.1 hd.2
    unfold uniqueLoop
    cases hc : covered dest y with
    | true =>
      simp only [if_true]
      apply ih dest
      exact List.pairwise_cons.2 ⟨fun z hz => hd.1 z (List.mem_cons_of_mem _ hz), hy.2⟩
    | false =>
      simp only [Bool.false_eq_true, if_false]
      refine List.pairwise_cons.2 ⟨?_, ih y hd.2⟩
      intro z hz
      rcases List.mem_cons.1 hz with rfl | hz
      · exact hc
      · have hzys : z ∈ ys := (uniqueLoop_sublist covered y ys).subset hz
        by_contra hcon
        have hzd : z.IsSubdomain dest = true := by simpa using hcon
        have hyd : y.IsSubdomain dest = true :=
          covered_of_between hzd (hd.1 y (List.mem_cons_self _ _)) (hy.1 z hzys)
        have : covered dest y = true := hyd
        simp [this] at hc

/-! ## Facts about the binary search -/

/-- The loop of `std::upper_bound` terminates within its bound and returns the
partition point, when `comp value` is false on the vector before `first`, true
from `first + len` on, and once true stays true. -/
theorem upperBoundLoop_spec (v : List Domain) (value : Domain)
    (comp : Domain → Domain → Bool)
    (hmono : ∀ i j (hi : i < v.length) (hj : j < v.length), i ≤ j →
      comp value v[i] = true → comp value v[j] = true) :
    ∀ fuel first len, len ≤ fuel → first + len ≤ v.length →
      (∀ i (hi : i < v.length), i < first → comp value v[i] = false) →
      (∀ i (hi : i < v.length), first + len ≤ i → comp value v[i] = true) →
      ∃ r, upperBoundLoop v value comp fuel first len = some r ∧ r ≤ v.length ∧
        (∀ i (hi : i < v.length), i < r → comp value v[i] = false) ∧
        (∀ i (hi : i < v.length), r ≤ i → comp value v[i] = true) := by
  intro fuel
  induction fuel with
  | zero =>
    intro first len hfuel hlen hlo hhi
    have hz : len = 0 := by omega
    subst hz
    exact ⟨first, by simp [upperBoundLoop], by omega, hlo, fun i hi h => hhi i hi (by omega)⟩
  | succ fuel ih =>
    intro first len hfuel hlen hlo hhi
    by_cases hpos : 0 < len
    · have hmid : first + len / 2 < v.length := by omega
      cases hc : comp value v[first + len / 2] with
      | true =>
        obtain ⟨r, hr, hrest⟩ := ih first (len / 2) (by omega) (by omega) hlo
          (fun i hi h => hmono (first + len / 2) i hmid hi h hc)
        refine ⟨r, ?_, hrest⟩
        simp only [upperBoundLoop, hpos, if_true, List.getElem?_eq_getElem hmid, hc]
        exact hr
      | false =>
        obtain ⟨r, hr, hrest⟩ := ih (first + len / 2 + 1) (len - len / 2 - 1) (by omega)
          (by omega)
          (fun i hi h => by
            by_contra hcon
            have hti : comp value v[i] = true := by simpa using hcon
            have := hmono i (first + len / 2) hi hmid (by omega) hti
            simp [this] at hc)
          (fun i hi h => hhi i hi (by omega))
        refine ⟨r, ?_, hrest⟩
        simp only [upperBoundLoop, hpos, if_true, List.getElem?_eq_getElem hmid, hc]
        exact hr
    · have hz : len = 0 := by omega
      subst hz
      exact ⟨first, by simp [upperBoundLoop], by omega, hlo, fun i hi h => hhi i hi (by omega)⟩

open DomainChecker in
/-- On an ascending vector `std::upper_bound` returns the index of the first
element greater than `value`. -/
theorem upper_bound_spec (v : List Domain) (value : Domain) (h : Ascending v) :
    ∃ r, upper_bound v value less = some r ∧ r ≤ v.length ∧
      (∀ i (hi : i < v.length), i < r → less value v[i] = false) ∧
      (∀ i (hi : i < v.length), r ≤ i → less value v[i] = true) := by
  unfold upper_bound
  apply upperBoundLoop_spec v value less ?_ v.length 0 v.length (le_refl _) (by omega)
  · intro i hi h0
    omega
  · intro i hi h0
    omega
  · intro i j hi hj hij hti
    rcases Nat.eq_or_lt_of_le hij with heq | hlt
    · subst heq
      exact hti
    · have hij2 := (List.pairwise_iff_getElem.1 h) i j hi hj hlt
      exact less_of_less_of_notLess hti hij2

/-! ## The invariant of the index -/

namespace DomainChecker

theorem banned_sublist (L : List Domain) : ((new L).GetBanned).Sublist (sort less L) :=
  unique_sublist covered (sort less L)

theorem banned_mem {L : List Domain} {e : Domain} (h : e ∈ (new L).GetBanned) : e ∈ L :=
  (sort_perm less L).subset ((banned_sublist L).subset h)

theorem banned_ascending (L : List Domain) : Ascending (new L).GetBanned :=
  List.Pairwise.sublist (banned_sublist L) (sort_ascending L)

/-- No retained entry covers a later retained entry. -/
theorem banned_free (L : List Domain) :
    ((new L).GetBanned).Pairwise (fun a b => b.IsSubdomain a = false) := by
  have hs := sort_ascending L
  show (unique covered (sort less L)).Pairwise _
  cases hl : sort less L with
  | nil => exact List.Pairwise.nil
  | cons x xs =>
    rw [hl] at hs
    exact uniqueLoop_free x xs hs

/-- Every entry of the input is covered by a retained entry. -/
theorem banned_covers (L : List Domain) :
    ∀ x ∈ L, ∃ r ∈ (new L).GetBanned, x.IsSubdomain r = true := by
  intro x hx
  exact unique_covers (sort less L) x ((sort_perm less L).symm.subset hx)

/-- The retained entries are strictly increasing. -/
theorem banned_strict (L : List Domain) :
    ((new L).GetBanned).Pairwise (fun a b => less a b = true) := by
  have h := (banned_ascending L).and (banned_free L)
  refine List.Pairwise.imp ?_ h
  intro a b hab
  by_contra hcon
  have hlt : less a b = false := by simpa using hcon
  have hEq : a = b := less_total hlt hab.1
  subst hEq
  simp [Domain.IsSubdomain_refl] at hab

/-- The query on an index that is ascending and in which no entry covers a
later one: `IsForbidden` returns, and its answer is whether some entry covers
the domain. -/
theorem IsForbidden_spec (c : DomainChecker) (hasc : Ascending c.banned_)
    (hfree : c.banned_.Pairwise (fun a b => b.IsSubdomain a = false)) (q : Domain) :
    c.IsForbidden q = some (c.banned_.any (fun e => q.IsSubdomain e)) := by
  unfold IsForbidden
  by_cases hempty : c.banned_.isEmpty = true
  · rw [if_pos hempty]
    rw [List.isEmpty_iff] at hempty
    simp [hempty]
  · rw [if_neg hempty]
    have hne : c.banned_ ≠ [] := by simpa [List.isEmpty_iff] using hempty
    have hlen : 0 < c.banned_.length := List.length_pos.2 hne
    obtain ⟨r, hr, hrle, hlo, hhi⟩ := upper_bound_spec c.banned_ q hasc
    rw [hr]
    simp only
    by_cases hr0 : r ≠ 0
    · rw [if_pos hr0]
      have hidx : r - 1 < c.banned_.length := by omega
      rw [List.getElem?_eq_getElem hidx]
      simp only [Option.map_some', Option.some.injEq]
      rw [Bool.eq_iff_iff, List.any_eq_true]
      constructor
      · intro h
        exact ⟨_, List.getElem_mem hidx, h⟩
      · rintro ⟨e, he, hqe⟩
        obtain ⟨i, hi, rfl⟩ := List.mem_iff_getElem.1 he
        have hir : i < r := by
          by_contra hcon
          have := hhi i hi (by omega)
          rw [notLess_of_covered hqe] at this
          cases this
        rcases Nat.eq_or_lt_of_le (Nat.le_sub_one_of_lt hir) with heq | hlt
        · subst heq
          exact hqe
        · exfalso
          have h1 := (List.pairwise_iff_getElem.1 hasc) i (r - 1) hi hidx hlt
          have h2 := hlo (r - 1) hidx (by omega)
          have h3 := covered_of_between hqe h1 h2
          have h4 := (List.pairwise_iff_getElem.1 hfree) i (r - 1) hi hidx hlt
          rw [h3] at h4
          cases h4
    · rw [if_neg hr0]
      have hz : r = 0 := by omega
      subst hz
      rw [List.getElem?_eq_getElem hlen]
      simp only [Option.map_some', Option.some.injEq]
      rw [Bool.eq_iff_iff, List.any_eq_true]
      constructor
      · intro h
        exact ⟨_, List.getElem_mem hlen, h⟩
      · rintro ⟨e, he, hqe⟩
        exfalso
        obtain ⟨i, hi, rfl⟩ := List.mem_iff_getElem.1 he
        have := hhi i hi (by omega)
        rw [notLess_of_covered hqe] at this
        cases this

/-- Pruning keeps what is covered: a domain is covered by a retained entry iff
it is covered by an entry of the input. -/
theorem any_banned (L : List Domain) (q : Domain) :
    ((new L).GetBanned).any (fun e => q.IsSubdomain e) = L.any (fun e => q.IsSubdomain e) := by
  rw [Bool.eq_iff_iff, List.any_eq_true, List.any_eq_true]
  constructor
  · rintro ⟨e, he, hqe⟩
    exact ⟨e, banned_mem he, hqe⟩
  · rintro ⟨e, he, hqe⟩
    obtain ⟨r, hr, her⟩ := banned_covers L e he
    exact ⟨r, hr, Domain.IsSubdomain_trans hqe her⟩

/-- The query on a constructed checker returns whether some entry of the input
covers the domain. -/
theorem IsForbidden_new (L : List Domain) (q : Domain) :
    (new L).IsForbidden q = some (L.any (fun e => q.IsSubdomain e)) := by
  rw [← any_banned L q]
  exact IsForbidden_spec (new L) (banned_ascending L) (banned_free L) q

end DomainChecker

namespace DomainChecker

/-- Among the retained entries only an entry itself covers it. -/
theorem banned_index_free (L : List Domain) (i j : Nat) (hi : i < (new L).GetBanned.length)
    (hj : j < (new L).GetBanned.length) (hij : i ≠ j) :
    ((new L).GetBanned[i]).IsSubdomain ((new L).GetBanned[j]) = false := by
  rcases Nat.lt_or_gt_of_ne hij with hlt | hgt
  · have h1 := (List.pairwise_iff_getElem.1 (banned_strict L)) i j hi hj hlt
    by_contra hcon
    have h2 : ((new L).GetBanned[i]).IsSubdomain ((new L).GetBanned[j]) = true := by
      simpa using hcon
    rw [notLess_of_covered h2] at h1
    cases h1
  · exact (List.pairwise_iff_getElem.1 (banned_free L)) j i hj hi hgt

theorem banned_eq_of_covered (L : List Domain) {a b : Domain} (ha : a ∈ (new L).GetBanned)
    (hb : b ∈ (new L).GetBanned) (hab : a.IsSubdomain b = true) : a = b := by
  obtain ⟨i, hi, rfl⟩ := List.mem_iff_getElem.1 ha
  obtain ⟨j, hj, rfl⟩ := List.mem_iff_getElem.1 hb
  by_cases hij : i = j
  · subst hij
    rfl
  · rw [banned_index_free L i j hi hj hij] at hab
    cases hab

theorem banned_nodup (L : List Domain) : ((new L).GetBanned).Nodup := by
  refine List.Pairwise.imp ?_ (banned_strict L)
  intro a b hab hEq
  subst hEq
  rw [less_irrefl] at hab
  cases hab

/-- The retained entries are the entries of the input that no other entry of
the input covers. -/
theorem mem_banned_iff (L : List Domain) (e : Domain) :
    e ∈ (new L).GetBanned ↔ e ∈ L ∧ ∀ f ∈ L, f ≠ e → e.IsSubdomain f = false := by
  constructor
  · intro he
    refine ⟨banned_mem he, ?_⟩
    intro f hf hne
    by_contra hcon
    have hef : e.IsSubdomain f = true := by simpa using hcon
    obtain ⟨r, hr, hfr⟩ := banned_covers L f hf
    have her : e = r := banned_eq_of_covered L he hr (Domain.IsSubdomain_trans hef hfr)
    subst her
    exact hne (Domain.IsSubdomain_antisymm hfr hef)
  · rintro ⟨he, hfree⟩
    obtain ⟨r, hr, her⟩ := banned_covers L e he
    by_cases hre : r = e
    · subst hre
      exact hr
    · rw [hfree r (banned_mem hr) hre] at her
      cases her

/-- The retained entries depend only on which domains occur in the input. -/
theorem banned_congr {L L' : List Domain} (h : ∀ e, e ∈ L' ↔ e ∈ L) :
    (new L').GetBanned = (new L).GetBanned := by
  apply ascending_perm_eq ?_ (banned_ascending L') (banned_ascending L)
  rw [List.perm_ext_iff_of_nodup (banned_nodup L') (banned_nodup L)]
  intro e
  rw [mem_banned_iff, mem_banned_iff]
  constructor
  · rintro ⟨he, hf⟩
    exact ⟨(h e).1 he, fun f hfL hne => hf f ((h f).2 hfL) hne⟩
  · rintro ⟨he, hf⟩
    exact ⟨(h e).2 he, fun f hfL hne => hf f ((h f).1 hfL) hne⟩

end DomainChecker

theorem ReadDomains_fst (B : List (List Char)) :
    (ReadDomains B B.length).1 = B.map (fun s => Domain.mk (normalize s)) := by
  induction B with
  | nil => rfl
  | cons b B ih => simp [ReadDomains, ih]

/-- On normalized strings `IsSubdomain` is the relation "equal, or ends with a
dot followed by the other" of the raw strings. -/
theorem IsSubdomain_normalize (a b : List Char) :
    (Domain.mk (normalize a)).IsSubdomain (Domain.mk (normalize b)) = true ↔
      (a = b ∨ ∃ x, a = x ++ '.' :: b) := by
  rw [Domain.IsSubdomain_iff]
  show (b.reverse ++ ['.']) <+: (a.reverse ++ ['.']) ↔ _
  constructor
  · rintro ⟨t, ht⟩
    have h := congrArg List.reverse ht
    simp only [List.reverse_append, List.reverse_reverse, List.reverse_cons, List.reverse_nil,
      List.nil_append, List.singleton_append, List.append_assoc] at h
    cases hr : t.reverse with
    | nil =>
      rw [hr] at h
      simp only [List.nil_append, List.cons.injEq, true_and] at h
      exact Or.inl h.symm
    | cons c u =>
      rw [hr] at h
      simp only [List.cons_append, List.cons.injEq] at h
      exact Or.inr ⟨u, h.2.symm⟩
  · rintro (rfl | ⟨x, rfl⟩)
    · exact List.prefix_refl _
    · refine ⟨x.reverse ++ ['.'], ?_⟩
      simp

namespace DomainChecker

/-- When the search over the index returns the first position, the first
retained entry does not cover the domain. -/
theorem first_entry_not_covering (L : List Domain) (q : Domain)
    (h0 : upper_bound (new L).GetBanned q less = some 0) :
    ∀ e ∈ (new L).GetBanned, q.IsSubdomain e = false := by
  obtain ⟨r, hr, _, _, hhi⟩ := upper_bound_spec (new L).GetBanned q (banned_ascending L)
  rw [h0, Option.some.injEq] at hr
  subst hr
  intro e he
  obtain ⟨i, hi, rfl⟩ := List.mem_iff_getElem.1 he
  have hlt := hhi i hi (Nat.zero_le i)
  by_contra hcon
  have hcov : q.IsSubdomain ((new L).GetBanned[i]) = true := by simpa using hcon
  rw [notLess_of_covered hcov] at hlt
  cases hlt

/-- The search over a constructed index returns a position, and the index
`IsForbidden` reads at is inside the vector when the vector is not empty. -/
theorem at_index_in_range (L : List Domain) (q : Domain) :
    ∃ m, upper_bound (new L).GetBanned q less = some m ∧
      ((new L).GetBanned ≠ [] →
        (m ≠ 0 → m - 1 < (new L).GetBanned.length) ∧
        (m = 0 → m < (new L).GetBanned.length)) := by
  obtain ⟨r, hr, hle, _, _⟩ := upper_bound_spec (new L).GetBanned q (banned_ascending L)
  refine ⟨r, hr, ?_⟩
  intro hne
  have hpos : 0 < (new L).GetBanned.length := List.length_pos.2 hne
  constructor
  · intro h
    omega
  · intro h
    omega

/-- In the sorted block-list the entries from an entry `A` to an entry covered
by `A` are all covered by `A`. -/
theorem sorted_between_covered (L : List Domain) (i k j : Nat)
    (hi : i < (sort less L).length) (hk : k < (sort less L).length)
    (hj : j < (sort less L).length) (hik : i < k) (hkj : k < j)
    (hcov : ((sort less L)[j]).IsSubdomain ((sort less L)[i]) = true) :
    ((sort less L)[k]).IsSubdomain ((sort less L)[i]) = true := by
  have hasc := List.pairwise_iff_getElem.1 (sort_ascending L)
  exact covered_of_between hcov (hasc i k hi hk hik) (hasc k j hk hj hkj)

end DomainChecker

/-! ## The claims -/

/-- C1: for every input list `L` and every domain `q`, the query of the checker
built from `L` returns, and it returns true exactly when some entry `e` of the
original input satisfies `q.IsSubdomain(e)`. -/
theorem C1_IsForbidden_iff_input_covers (L : List Domain) (q : Domain) :
    ((DomainChecker.new L).IsForbidden q = some true ↔ ∃ e ∈ L, q.IsSubdomain e = true) ∧
    ((DomainChecker.new L).IsForbidden q = some false ↔ ¬ ∃ e ∈ L, q.IsSubdomain e = true) := by
  rw [DomainChecker.IsForbidden_new, ← List.any_eq_true]
  cases L.any (fun e => q.IsSubdomain e) <;> simp

/-- C2: some entry of the raw input covers `q` if and only if some entry of the
pruned list `GetBanned()` covers `q`. -/
theorem C2_pruning_keeps_coverage (L : List Domain) (q : Domain) :
    (∃ e ∈ L, q.IsSubdomain e = true) ↔
      (∃ e ∈ (DomainChecker.new L).GetBanned, q.IsSubdomain e = true) := by
  rw [← List.any_eq_true, ← List.any_eq_true, DomainChecker.any_banned]

/-- C3: for raw strings `a` and `b`, the normalized `a` is a subdomain of the
normalized `b` if and only if `a` equals `b` or `a` ends with a dot followed by
`b`. -/
theorem C3_IsSubdomain_normalize_iff (a b : List Char) :
    (Domain.mk (normalize a)).IsSubdomain (Domain.mk (normalize b)) = true ↔
      (a = b ∨ ∃ x, a = x ++ '.' :: b) :=
  IsSubdomain_normalize a b

/-- C4: the list `GetBanned()` is strictly increasing in the lexicographic
order of the strings, and no entry is a subdomain of an entry at another
position. -/
theorem C4_banned_strictly_sorted_and_free (L : List Domain) :
    ((DomainChecker.new L).GetBanned).Pairwise
        (fun a b => strLess a.GetDomain b.GetDomain = true) ∧
      ∀ (i j : Nat) (hi : i < (DomainChecker.new L).GetBanned.length)
        (hj : j < (DomainChecker.new L).GetBanned.length), i ≠ j →
        ((DomainChecker.new L).GetBanned[i]).IsSubdomain ((DomainChecker.new L).GetBanned[j])
          = false :=
  ⟨DomainChecker.banned_strict L, DomainChecker.banned_index_free L⟩

/-- C5: `GetBanned()` holds exactly the entries of the input that are not a
subdomain of another, different entry of the input, each of them once. -/
theorem C5_banned_is_the_uncovered_entries (L : List Domain) :
    ((DomainChecker.new L).GetBanned).Nodup ∧
      ∀ e : Domain, e ∈ (DomainChecker.new L).GetBanned ↔
        (e ∈ L ∧ ∀ f ∈ L, f ≠ e → e.IsSubdomain f = false) :=
  ⟨DomainChecker.banned_nodup L, DomainChecker.mem_banned_iff L⟩

/-- C6: when `L'` is `L` reordered with further copies of entries of `L`
inserted, the two checkers have the same `GetBanned()` list and give the same
answer to every query. -/
theorem C6_reordering_and_copies (L L' : List Domain) (hsub : List.Subperm L L')
    (hcopies : ∀ d ∈ L', d ∈ L) :
    (DomainChecker.new L').GetBanned = (DomainChecker.new L).GetBanned ∧
      ∀ q : Domain, (DomainChecker.new L').IsForbidden q = (DomainChecker.new L).IsForbidden q := by
  have hmem : ∀ e, e ∈ L' ↔ e ∈ L := fun e => ⟨hcopies e, fun he => hsub.subset he⟩
  refine ⟨DomainChecker.banned_congr hmem, ?_⟩
  intro q
  rw [DomainChecker.IsForbidden_new, DomainChecker.IsForbidden_new, Option.some.injEq,
    Bool.eq_iff_iff, List.any_eq_true, List.any_eq_true]
  constructor
  · rintro ⟨e, he, hq⟩
    exact ⟨e, (hmem e).1 he, hq⟩
  · rintro ⟨e, he, hq⟩
    exact ⟨e, (hmem e).2 he, hq⟩

/-- C6 at the block-list `ur.zdg.`, `em.spam.` and its reordering with a second
copy of `em.spam.`. -/
theorem C6_reordering_and_copies_witness :
    (DomainChecker.new
        [Domain.mk "em.spam.".toList, Domain.mk "ur.zdg.".toList,
          Domain.mk "em.spam.".toList]).GetBanned
      = (DomainChecker.new [Domain.mk "ur.zdg.".toList, Domain.mk "em.spam.".toList]).GetBanned ∧
    ∀ q : Domain,
      (DomainChecker.new
        [Domain.mk "em.spam.".toList, Domain.mk "ur.zdg.".toList,
          Domain.mk "em.spam.".toList]).IsForbidden q
      = (DomainChecker.new
        [Domain.mk "ur.zdg.".toList, Domain.mk "em.spam.".toList]).IsForbidden q :=
  C6_reordering_and_copies
    [Domain.mk "ur.zdg.".toList, Domain.mk "em.spam.".toList]
    [Domain.mk "em.spam.".toList, Domain.mk "ur.zdg.".toList, Domain.mk "em.spam.".toList]
    ⟨[Domain.mk "em.spam.".toList, Domain.mk "ur.zdg.".toList],
      List.Perm.swap _ _ _, List.Sublist.cons₂ _ (List.Sublist.cons₂ _ (List.nil_sublist _))⟩
    (by decide)

/-- C7: with the single blocked domain `b`, a tested domain `x ++ b`, where `x`
is not empty and does not end with a dot, is not forbidden. -/
theorem C7_label_extension_not_forbidden (b x : List Char) (hx : x ≠ [])
    (hlast : x.getLast hx ≠ '.') :
    (DomainChecker.new [Domain.mk (normalize b)]).IsForbidden
      (Domain.mk (normalize (x ++ b))) = some false := by
  rw [DomainChecker.IsForbidden_new]
  simp only [List.any_cons, List.any_nil, Bool.or_false, Option.some.injEq]
  by_contra hcon
  have h : (Domain.mk (normalize (x ++ b))).IsSubdomain (Domain.mk (normalize b)) = true := by
    simpa using hcon
  rcases (IsSubdomain_normalize (x ++ b) b).1 h with h1 | ⟨y, h1⟩
  · have := congrArg List.length h1
    have hpos := List.length_pos.2 hx
    rw [List.length_append] at this
    omega
  · have h2 : x ++ b = (y ++ ['.']) ++ b := by simpa using h1
    have h3 : x = y ++ ['.'] := List.append_cancel_right h2
    apply hlast
    simp [h3]

/-- C7 at the blocked domain `gdz.ru` and the tested domain `abcgdz.ru`. -/
theorem C7_label_extension_not_forbidden_witness :
    (DomainChecker.new [Domain.mk (normalize "gdz.ru".toList)]).IsForbidden
      (Domain.mk (normalize ("abc".toList ++ "gdz.ru".toList))) = some false :=
  C7_label_extension_not_forbidden "gdz.ru".toList "abc".toList (by decide) (by decide)

/-- C8: for a block-list `B` of raw strings read by `ReadDomains`, a raw string
`d` whose normalized form is in `GetBanned()` and any string `x`, the domain
`x.d` is forbidden. -/
theorem C8_descendant_of_retained_forbidden (B : List (List Char)) (d x : List Char)
    (hd : Domain.mk (normalize d) ∈ (DomainChecker.new (ReadDomains B B.length).1).GetBanned) :
    (DomainChecker.new (ReadDomains B B.length).1).IsForbidden
      (Domain.mk (normalize (x ++ '.' :: d))) = some true := by
  rw [DomainChecker.IsForbidden_new, Option.some.injEq, List.any_eq_true]
  exact ⟨_, DomainChecker.banned_mem hd, (IsSubdomain_normalize _ _).2 (Or.inr ⟨x, rfl⟩)⟩

/-- C8 at the block-list `gdz.ru`, `maps.me`, the retained `gdz.ru` and the
label `abc`. -/
theorem C8_descendant_of_retained_forbidden_witness :
    (DomainChecker.new (ReadDomains ["gdz.ru".toList, "maps.me".toList] 2).1).IsForbidden
      (Domain.mk (normalize ("abc".toList ++ '.' :: "gdz.ru".toList))) = some true :=
  C8_descendant_of_retained_forbidden ["gdz.ru".toList, "maps.me".toList] "gdz.ru".toList
    "abc".toList (by decide)

/-- C9: every domain of the input, pruned or not, is forbidden. -/
theorem C9_input_entries_forbidden (L : List Domain) (D : Domain) (hD : D ∈ L) :
    (DomainChecker.new L).IsForbidden D = some true := by
  rw [DomainChecker.IsForbidden_new, Option.some.injEq, List.any_eq_true]
  exact ⟨D, hD, Domain.IsSubdomain_refl D⟩

/-- C9 at the input `ur.zdg.`, `ur.zdg.cba.`, `ur.zdg.` and its pruned entry
`ur.zdg.cba.`. -/
theorem C9_input_entries_forbidden_witness :
    Domain.mk "ur.zdg.cba.".toList ∉
        (DomainChecker.new [Domain.mk "ur.zdg.".toList, Domain.mk "ur.zdg.cba.".toList,
          Domain.mk "ur.zdg.".toList]).GetBanned ∧
      (DomainChecker.new [Domain.mk "ur.zdg.".toList, Domain.mk "ur.zdg.cba.".toList,
        Domain.mk "ur.zdg.".toList]).IsForbidden (Domain.mk "ur.zdg.cba.".toList) = some true :=
  ⟨by decide,
    C9_input_entries_forbidden
      [Domain.mk "ur.zdg.".toList, Domain.mk "ur.zdg.cba.".toList, Domain.mk "ur.zdg.".toList]
      (Domain.mk "ur.zdg.cba.".toList) (by decide)⟩

/-- C10: `IsSubdomain` is reflexive, transitive and antisymmetric with respect
to `operator==`, and it is not symmetric. -/
theorem C10_IsSubdomain_partial_order :
    (∀ a : Domain, a.IsSubdomain a = true) ∧
    (∀ a b c : Domain, a.IsSubdomain b = true → b.IsSubdomain c = true →
      a.IsSubdomain c = true) ∧
    (∀ a b : Domain, a.IsSubdomain b = true → b.IsSubdomain a = true →
      a.operatorEq b = true) ∧
    (∃ a b : Domain, a.IsSubdomain b = true ∧ b.IsSubdomain a = false) := by
  refine ⟨Domain.IsSubdomain_refl, fun a b c => Domain.IsSubdomain_trans, ?_, ?_⟩
  · intro a b hab hba
    have h := Domain.IsSubdomain_antisymm hab hba
    subst h
    simp [Domain.operatorEq]
  · exact ⟨Domain.mk "ur.zdg.cba.".toList, Domain.mk "ur.zdg.".toList, by decide, by decide⟩

/-- C11: the checker built from the empty sequence has an empty `GetBanned()`
and answers false to every query. -/
theorem C11_empty_block_list :
    (∀ q : Domain, (DomainChecker.new []).IsForbidden q = some false) ∧
      (DomainChecker.new []).GetBanned = [] :=
  ⟨fun _ => rfl, rfl⟩

/-- C12: two normalized raw strings make domains equal under `operator==` if
and only if the raw strings are equal. -/
theorem C12_normalize_injective (a b : List Char) :
    (Domain.mk (normalize a)).operatorEq (Domain.mk (normalize b)) = true ↔ a = b := by
  simp [Domain.operatorEq, normalize]

/-- C13, as the claim states it, fails: the constructor stores the string
`gdz.ru` unchanged, and that is not the reversed string followed by a dot. -/
theorem C13_constructor_does_not_normalize :
    (Domain.mk "gdz.ru".toList).GetDomain = "gdz.ru".toList ∧
      (Domain.mk "gdz.ru".toList).GetDomain ≠ "gdz.ru".toList.reverse ++ ['.'] := by
  decide

/-- C13, amended: a raw string `s` read by `ReadDomains` yields the `Domain`
constructed from the normalized string, and its `GetDomain()` is the reversal
of `s` followed by one dot. -/
theorem C13_ReadDomains_normalizes (s : List Char) (rest : List (List Char)) :
    (ReadDomains (s :: rest) 1).1 = [Domain.mk (normalize s)] ∧
      (Domain.mk (normalize s)).GetDomain = s.reverse ++ ['.'] :=
  ⟨rfl, rfl⟩

/-- C14: `GetDomain()` of the `Domain` constructed from a string returns that
string unchanged. -/
theorem C14_GetDomain_of_constructed (s : List Char) : (Domain.mk s).GetDomain = s :=
  rfl

/-- The strings of the domains `ReadDomains` returns when the input has enough
lines. -/
theorem ReadDomains_GetDomain (input : List (List Char)) (n : Nat) (h : n ≤ input.length) :
    (ReadDomains input n).1.map Domain.GetDomain
      = (input.take n).map (fun l => l.reverse ++ ['.']) := by
  induction n generalizing input with
  | zero => simp [ReadDomains]
  | succ n ih =>
    cases input with
    | nil => simp at h
    | cons l input =>
      have h2 : n ≤ input.length := by simpa using h
      simp [ReadDomains, ih input h2, Domain.GetDomain, normalize]

/-- C15: on an input of at least `n` lines `ReadDomains` returns `n` domains,
in the order of the lines, the string of each being its line reversed and
followed by a dot. -/
theorem C15_ReadDomains_lines (input : List (List Char)) (n : Nat) (h : n ≤ input.length) :
    (ReadDomains input n).1.length = n ∧
      (ReadDomains input n).1.map Domain.GetDomain
        = (input.take n).map (fun l => l.reverse ++ ['.']) := by
  have hmap := ReadDomains_GetDomain input n h
  refine ⟨?_, hmap⟩
  have hlen := congrArg List.length hmap
  simp only [List.length_map, List.length_take] at hlen
  omega

/-- C15 at the lines `gdz.ru` and `maps.me`. -/
theorem C15_ReadDomains_lines_witness :
    (ReadDomains ["gdz.ru".toList, "maps.me".toList] 2).1.length = 2 ∧
      (ReadDomains ["gdz.ru".toList, "maps.me".toList] 2).1.map Domain.GetDomain
        = ["ur.zdg.".toList, "em.spam.".toList] :=
  C15_ReadDomains_lines ["gdz.ru".toList, "maps.me".toList] 2 (by decide)

/-- C16: for the block-list `gdz.ru`, `abc.gdz.ru`, `maps.me`, `GetBanned()` is
`em.spam.`, `ur.zdg.`, the normalized `freegdz.ru` is not forbidden and the
normalized `abc.gdz.ru` is. -/
theorem C16_scenario_three_entries :
    (DomainChecker.new
        (ReadDomains ["gdz.ru".toList, "abc.gdz.ru".toList, "maps.me".toList] 3).1).GetBanned
      = [Domain.mk "em.spam.".toList, Domain.mk "ur.zdg.".toList] ∧
    (DomainChecker.new
        (ReadDomains ["gdz.ru".toList, "abc.gdz.ru".toList, "maps.me".toList] 3).1).IsForbidden
      (Domain.mk (normalize "freegdz.ru".toList)) = some false ∧
    (DomainChecker.new
        (ReadDomains ["gdz.ru".toList, "abc.gdz.ru".toList, "maps.me".toList] 3).1).IsForbidden
      (Domain.mk (normalize "abc.gdz.ru".toList)) = some true := by
  decide

/-- C17: for the block-list `gdz.ru`, `maps.me` the queries `gdz.ru`, `gdz.com`,
`maps.com`, `alex.maps.me` are answered true, false, false, true, and `main`
writes `Bad`, `Good`, `Good`, `Bad`, one line for each test domain in their
order. -/
theorem C17_scenario_verdicts :
    (ReadDomains ["gdz.ru".toList, "gdz.com".toList, "maps.com".toList,
        "alex.maps.me".toList] 4).1.map
      (DomainChecker.new (ReadDomains ["gdz.ru".toList, "maps.me".toList] 2).1).IsForbidden
      = [some true, some false, some false, some true] ∧
    ∀ extract : List Char → Nat, extract "2".toList = 2 → extract "4".toList = 4 →
      main extract ["2".toList, "gdz.ru".toList, "maps.me".toList, "4".toList,
        "gdz.ru".toList, "gdz.com".toList, "maps.com".toList, "alex.maps.me".toList]
        = some ["Bad", "Good", "Good", "Bad"] := by
  refine ⟨by decide, ?_⟩
  intro extract h2 h4
  have hread : ReadDomains ["gdz.ru".toList, "maps.me".toList, "4".toList, "gdz.ru".toList,
      "gdz.com".toList, "maps.com".toList, "alex.maps.me".toList] 2
      = ([Domain.mk (normalize "gdz.ru".toList), Domain.mk (normalize "maps.me".toList)],
        ["4".toList, "gdz.ru".toList, "gdz.com".toList, "maps.com".toList,
          "alex.maps.me".toList]) := rfl
  simp only [main, ReadNumberOnLine, h2, hread, h4]
  decide

/-- C18: when the index is not empty and the search returns the first position
the query is answered false; so `IsForbidden` and its guarded variant agree on
every constructed checker and every domain. -/
theorem C18_fallback_harmless :
    (∀ (L : List Domain) (q : Domain), (DomainChecker.new L).GetBanned ≠ [] →
      upper_bound (DomainChecker.new L).GetBanned q DomainChecker.less = some 0 →
      (DomainChecker.new L).IsForbidden q = some false) ∧
    (∀ (L : List Domain) (q : Domain),
      (DomainChecker.new L).IsForbidden q = (DomainChecker.new L).IsForbiddenGuarded q) := by
  have key : ∀ (L : List Domain) (q : Domain),
      upper_bound (DomainChecker.new L).GetBanned q DomainChecker.less = some 0 →
      (DomainChecker.new L).IsForbidden q = some false := by
    intro L q h0
    rw [DomainChecker.IsForbidden_new, ← DomainChecker.any_banned, Option.some.injEq]
    by_contra hcon
    have hany : ((DomainChecker.new L).GetBanned).any (fun e => q.IsSubdomain e) = true := by
      simpa using hcon
    obtain ⟨e, he, hcov⟩ := List.any_eq_true.1 hany
    rw [DomainChecker.first_entry_not_covering L q h0 e he] at hcov
    cases hcov
  refine ⟨fun L q _ h0 => key L q h0, ?_⟩
  intro L q
  have hk := key L q
  unfold DomainChecker.IsForbidden at hk ⊢
  unfold DomainChecker.IsForbiddenGuarded
  by_cases hempty : (DomainChecker.new L).banned_.isEmpty = true
  · rw [if_pos hempty, if_pos hempty]
  · rw [if_neg hempty] at hk
    rw [if_neg hempty, if_neg hempty]
    cases hub : upper_bound (DomainChecker.new L).banned_ q DomainChecker.less with
    | none => rfl
    | some m =>
      by_cases hm : m ≠ 0
      · simp only [hm, if_true, ne_eq, not_false_eq_true]
      · have hz : m = 0 := by simpa using hm
        subst hz
        have := hk hub
        rw [hub] at this
        simpa using this

/-- C18 at the block-list `ur.zdg.` and the query `em.spam.`, where the search
returns the first position. -/
theorem C18_fallback_harmless_witness :
    upper_bound (DomainChecker.new [Domain.mk "ur.zdg.".toList]).GetBanned
        (Domain.mk "em.spam.".toList) DomainChecker.less = some 0 ∧
      (DomainChecker.new [Domain.mk "ur.zdg.".toList]).IsForbidden
        (Domain.mk "em.spam.".toList) = some false :=
  ⟨by decide,
    C18_fallback_harmless.1 [Domain.mk "ur.zdg.".toList] (Domain.mk "em.spam.".toList)
      (by decide) (by decide)⟩

/-- C19: for every input and every domain the search returns a position, the
index read by `at` is inside the vector on both branches, and `IsForbidden`
returns a boolean. -/
theorem C19_queries_cannot_fail (L : List Domain) (q : Domain) :
    (∃ m, upper_bound (DomainChecker.new L).GetBanned q DomainChecker.less = some m ∧
      ((DomainChecker.new L).GetBanned ≠ [] →
        (m ≠ 0 → m - 1 < (DomainChecker.new L).GetBanned.length) ∧
        (m = 0 → m < (DomainChecker.new L).GetBanned.length))) ∧
    ∃ b : Bool, (DomainChecker.new L).IsForbidden q = some b :=
  ⟨DomainChecker.at_index_in_range L q, _, DomainChecker.IsForbidden_new L q⟩

/-- C20, as the claim states it, fails: in the sorted list `a.`, `a.b.`, `a.c.`
the entry `a.c.` is a subdomain of the earlier `a.`, and it is not a subdomain
of `a.b.`, which lies between them. -/
theorem C20_between_is_not_ancestor :
    sort DomainChecker.less
        [Domain.mk "a.".toList, Domain.mk "a.b.".toList, Domain.mk "a.c.".toList]
      = [Domain.mk "a.".toList, Domain.mk "a.b.".toList, Domain.mk "a.c.".toList] ∧
    (Domain.mk "a.c.".toList).IsSubdomain (Domain.mk "a.".toList) = true ∧
    (Domain.mk "a.c.".toList).IsSubdomain (Domain.mk "a.b.".toList) = false := by
  decide

/-- C20, amended: in the sorted list, when the entry at `j` is a subdomain of
the earlier entry at `i`, every entry at a position `k` between them is a
subdomain of the entry at `i`. -/
theorem C20_between_is_descendant (L : List Domain) (i k j : Nat)
    (hi : i < (sort DomainChecker.less L).length)
    (hk : k < (sort DomainChecker.less L).length)
    (hj : j < (sort DomainChecker.less L).length) (hik : i < k) (hkj : k < j)
    (hcov : ((sort DomainChecker.less L)[j]).IsSubdomain ((sort DomainChecker.less L)[i])
      = true) :
    ((sort DomainChecker.less L)[k]).IsSubdomain ((sort DomainChecker.less L)[i]) = true :=
  DomainChecker.sorted_between_covered L i k j hi hk hj hik hkj hcov

/-- C20, amended, at the list `a.c.`, `a.`, `a.b.`, whose sorted form is `a.`,
`a.b.`, `a.c.`. -/
theorem C20_between_is_descendant_witness :
    (Domain.mk "a.b.".toList).IsSubdomain (Domain.mk "a.".toList) = true :=
  C20_between_is_descendant
    [Domain.mk "a.c.".toList, Domain.mk "a.".toList, Domain.mk "a.b.".toList] 0 1 2
    (by decide) (by decide) (by decide) (by decide) (by decide) (by decide)

end BadDomains
